import Mathlib

/-!
# Verification of the JSLint Studio scope analyzer (`src/services/lintService.ts`)

This file gives a shallow embedding of the analyzer in `lintService.ts` and
proves properties of it.  Mutable JS state (the scope stack, the diagnostic
array, the dedup set) becomes an explicit state record `LState`; the Babel
visitor traversal is compiled to a trace of primitive operations (`Op`),
mirroring the order in which the visitor callbacks fire, and the primitive
operations (`declare`, `use`, `enterScope`, `exitScope`) are direct
translations of the closures in `lintCode`.
-/

set_option maxRecDepth 4000

namespace LintService

/-- Source position, `loc.start` of a Babel node: `{line, column}`. -/
structure Loc where
  line : Nat
  column : Nat
deriving DecidableEq, Repr

/-- Declaration kinds, the `kind` field of `Decl` in the source:
`"var" | "let" | "const" | "param" | "function"`. -/
inductive DKind where
| dvar
| dlet
| dconst
| dparam
| dfun
deriving DecidableEq, Repr

/-- `Decl` record from the source: `{loc, kind, startIndex, endIndex}`. -/
structure Decl where
  kind : DKind
  loc : Loc
  startIndex : Nat
  endIndex : Nat
deriving DecidableEq, Repr

/-- A scope: `{declared: Map<string, Decl>, used: Set<string>}`.  The JS `Map`
is modelled as an association list in insertion order (the analyzer never
overwrites an entry, so keys are unique and first-match lookup agrees with
`Map.get`); the JS `Set` as a list with membership. -/
structure Scope where
  declared : List (String × Decl)
  used : List String
deriving DecidableEq, Repr

/-- Diagnostic severity, `"error" | "warning"`. -/
inductive Sev where
| error
| warning
deriving DecidableEq, Repr

/-- Fix kind: the source only ever constructs `{type: "remove", ...}`. -/
inductive FixKind where
| remove
deriving DecidableEq, Repr

/-- The `fix` payload of a `LintError`: `{type: "remove", start, end}`. -/
structure Fix where
  ftype : FixKind
  start : Nat
  stop : Nat
deriving DecidableEq, Repr

/-- The `LintError` record pushed onto `errors` (fields the analyzer sets). -/
structure LintError where
  ruleId : Option String := none
  message : String
  line : Nat
  column : Nat
  severity : Sev
  fix : Option Fix := none
deriving DecidableEq, Repr

/-- The analyzer's mutable state in `lintCode`: the `errors` array, the
`scopeStack` (head of the list = top of the stack = innermost scope) and the
`reportedUnused` dedup set of start indices. -/
structure LState where
  errors : List LintError
  scopeStack : List Scope
  reportedUnused : List Nat
deriving DecidableEq, Repr

/-- The fresh state built at the start of every `lintCode` invocation. -/
def initState : LState := ⟨[], [], []⟩

/-- The fixed ambient-names set `GLOBALS`, in source order. -/
def GLOBALS : List String :=
  ["console", "window", "document", "name", "location", "navigator",
   "setTimeout", "setInterval", "clearTimeout", "clearInterval"]

/-- A single-quote character as a string (used to build diagnostic texts). -/
def sq : String := String.singleton (Char.ofNat 39)

/-- Message of an unused-declaration warning. -/
def unusedMsg (name : String) : String :=
  sq ++ name ++ sq ++ " is declared but never used"

/-- Message of a TDZ error. -/
def tdzMsg (name : String) : String :=
  sq ++ name ++ sq ++ " is used before declaration (TDZ)"

/-- Message of an undefined-identifier error without suggestion. -/
def notDefinedMsg (name : String) : String :=
  sq ++ name ++ sq ++ " is not defined"

/-- Message of an undefined-identifier error with a suggestion. -/
def notDefinedSugMsg (name cand : String) : String :=
  sq ++ name ++ sq ++ " is not defined. Did you mean " ++ sq ++ cand ++ sq ++ "?"

/-- The unused-declaration diagnostic pushed by `exitScope`. -/
def unusedDiag (name : String) (decl : Decl) : LintError :=
  { message := unusedMsg name
    line := decl.loc.line
    column := decl.loc.column
    severity := Sev.warning
    fix := some ⟨FixKind.remove, decl.startIndex, decl.endIndex⟩ }

/-- The TDZ diagnostic pushed by `use`. -/
def tdzDiag (name : String) (loc : Loc) : LintError :=
  { message := tdzMsg name
    line := loc.line
    column := loc.column
    severity := Sev.error }

/-! ## Levenshtein distance (`levenshtein` in the source)

The source computes the distance with a single-row dynamic program.  The
inner `for j` loop becomes a fold over `b`'s characters zipped with the tail
of the previous row, carrying `(prevDiagonal, previous new cell, new row)`. -/

/-- One outer-loop iteration of the row DP: given character `a[i-1]` (with
`i` the 1-based outer index) and the previous row, produce the next row. -/
def levStep (ach : Char) (i : Nat) (bl : List Char) (row : List Nat) : List Nat :=
  match row with
  | [] => []
  | r0 :: rs =>
    let out := (bl.zip rs).foldl
      (fun (st : Nat × Nat × List Nat) (p : Char × Nat) =>
        let cost : Nat := if ach = p.1 then 0 else 1
        let v := Nat.min (Nat.min (p.2 + 1) (st.2.1 + 1)) (st.1 + cost)
        (p.2, v, st.2.2 ++ [v]))
      (r0, i, [i])
    out.2.2

/-- `levenshtein(a, b)` from the source. -/
def levenshtein (a b : String) : Nat :=
  if a = b then 0
  else
    let al := a.toList
    let bl := b.toList
    if al.length = 0 then bl.length
    else if bl.length = 0 then al.length
    else
      let row0 := List.range (bl.length + 1)
      let final := al.foldl
        (fun (st : Nat × List Nat) (ach : Char) =>
          (st.1 + 1, levStep ach st.1 bl st.2))
        (1, row0)
      final.2.getD bl.length 0

/-! ## Suggestion heuristic (`getSuggestion` in the source) -/

/-- `String.prototype.toLowerCase()`, modelled character-wise (ASCII case
mapping, which agrees with JS on identifier characters). -/
def toLowerStr (s : String) : String := String.mk (s.data.map Char.toLower)

/-- JS `Set` insertion: append each element not already present, keeping the
first occurrence's position. -/
def dedupFirst (l : List String) : List String :=
  l.foldl (fun acc x => if x ∈ acc then acc else acc ++ [x]) []

/-- The candidate list built at the top of `getSuggestion`: declared names of
every scope from innermost to outermost (each scope's names in insertion
order), then the `GLOBALS`, deduplicated keeping first insertions. -/
def candidateList (stack : List Scope) : List String :=
  dedupFirst ((stack.foldl (fun acc sc => acc ++ sc.declared.map Prod.fst) []) ++ GLOBALS)

/-- `maxDistance` from the source: `len ≤ 3 → 1`, `len ≤ 6 → 2`, else `3`. -/
def maxDistance (name : String) : Nat :=
  if name.length ≤ 3 then 1 else if name.length ≤ 6 then 2 else 3

/-- `Math.abs(candidate.length - name.length)`. -/
def lenDiff (a b : String) : Nat :=
  ((a.length : Int) - (b.length : Int)).natAbs

/-- The `for (const candidate of candidates)` loop carrying the mutable
`best` accumulator, translated to accumulator recursion. -/
def bestLoop (name : String) (maxD : Nat) :
    List String → Option (String × Nat) → Option (String × Nat)
  | [], best => best
  | c :: cs, best =>
    if lenDiff c name > maxD then bestLoop name maxD cs best
    else
      let d := levenshtein name c
      if d ≤ maxD then
        match best with
        | none => bestLoop name maxD cs (some (c, d))
        | some (_, bd) =>
          if d < bd then bestLoop name maxD cs (some (c, d))
          else bestLoop name maxD cs best
      else bestLoop name maxD cs best

/-- `getSuggestion(name)` from the source, reading the current scope stack. -/
def getSuggestion (stack : List Scope) (name : String) : Option String :=
  let candidates := candidateList stack
  match candidates.find? (fun c => toLowerStr c = toLowerStr name && c ≠ name) with
  | some c => some c
  | none =>
    match bestLoop name (maxDistance name) candidates none with
    | some (c, _) => some c
    | none => none

/-! ## Scope primitives (`enterScope`, `exitScope`, `declare`, `use`) -/

/-- `enterScope`: push a fresh scope. -/
def enterScope (st : LState) : LState :=
  { st with scopeStack := ⟨[], []⟩ :: st.scopeStack }

/-- The `scope.declared.forEach` loop of `exitScope`, in insertion order:
returns the list of new diagnostics and the extended `reportedUnused` set. -/
def emitUnused : List (String × Decl) → List String → List Nat →
    List LintError × List Nat
  | [], _, rep => ([], rep)
  | (name, decl) :: rest, used, rep =>
    if name ∈ used then emitUnused rest used rep
    else if decl.startIndex ∈ rep then emitUnused rest used rep
    else
      let out := emitUnused rest used (rep ++ [decl.startIndex])
      (unusedDiag name decl :: out.1, out.2)

/-- `exitScope`: pop the innermost scope and report its unused declarations. -/
def exitScope (st : LState) : LState :=
  match st.scopeStack with
  | [] => st
  | scope :: rest =>
    let out := emitUnused scope.declared scope.used st.reportedUnused
    { errors := st.errors ++ out.1
      scopeStack := rest
      reportedUnused := out.2 }

/-- `declare(name, kind, loc, startIndex, endIndex)`: register in the
innermost scope unless the name is already declared there (first wins). -/
def declare (name : String) (kind : DKind) (loc : Loc)
    (startIndex endIndex : Nat) (st : LState) : LState :=
  match st.scopeStack with
  | [] => st
  | scope :: rest =>
    if (scope.declared.find? (fun p => p.1 = name)).isSome then st
    else
      { st with scopeStack :=
          { scope with
            declared := scope.declared ++ [(name, ⟨kind, loc, startIndex, endIndex⟩)] }
          :: rest }

/-- Mark a name used in a scope (JS `Set.add`). -/
def markUsed (sc : Scope) (name : String) : Scope :=
  if name ∈ sc.used then sc else { sc with used := sc.used ++ [name] }

/-- The TDZ check of `use`: the diagnostics pushed after a successful
resolution — one TDZ error exactly when the declaration's kind is `let`,
`const` or `param` and the reference's line is strictly below the
declaration's line, else nothing. -/
def tdzCheck (name : String) (loc : Loc) (decl : Decl) : List LintError :=
  if (decl.kind = DKind.dlet ∨ decl.kind = DKind.dconst ∨
      decl.kind = DKind.dparam) ∧ loc.line < decl.loc.line
  then [tdzDiag name loc] else []

/-- The `for (let i = scopeStack.length - 1; ...)` search loop of `use`:
walks the stack innermost-first; on the first scope declaring the name it
marks the name used there and returns the TDZ diagnostics (if any). -/
def useLoop (name : String) (loc : Loc) :
    List Scope → Option (List Scope × List LintError)
  | [] => none
  | sc :: rest =>
    match sc.declared.find? (fun p => p.1 = name) with
    | some (_, decl) => some (markUsed sc name :: rest, tdzCheck name loc decl)
    | none =>
      match useLoop name loc rest with
      | some (rest', es) => some (sc :: rest', es)
      | none => none

/-- The undefined-identifier diagnostic pushed by `use`, with the optional
suggestion appended to the message. -/
def notDefinedDiag (stack : List Scope) (name : String) (loc : Loc) : LintError :=
  { message :=
      match getSuggestion stack name with
      | some c => notDefinedSugMsg name c
      | none => notDefinedMsg name
    line := loc.line
    column := loc.column
    severity := Sev.error }

/-- `use(name, loc)` from the source. -/
def use (name : String) (loc : Loc) (st : LState) : LState :=
  match useLoop name loc st.scopeStack with
  | some (stack', es) =>
    { st with scopeStack := stack', errors := st.errors ++ es }
  | none =>
    if name ∈ GLOBALS then st
    else
      { st with errors := st.errors ++ [notDefinedDiag st.scopeStack name loc] }

/-! ## AST

The node kinds the analyzer visits (`Program`, `BlockStatement`,
`FunctionDeclaration`, `ArrowFunctionExpression`, `VariableDeclaration` /
`VariableDeclarator`, `Identifier`, `MemberExpression`), plus the expression
forms needed to place identifiers in the positions the visitor inspects
(call arguments, binary operands, literals).  Each node carries the position
data the analyzer reads from it. -/

/-- `kind` of a `VariableDeclaration` node. -/
inductive VKind where
| vvar
| vlet
| vconst
deriving DecidableEq, Repr

/-- The mapping in `hoistDeclarations`:
`p.parent.kind === "var" ? "var" : p.parent.kind === "let" ? "let" : "const"`. -/
def VKind.toDKind : VKind → DKind
| .vvar => DKind.dvar
| .vlet => DKind.dlet
| .vconst => DKind.dconst

/-- A binding pattern slot (declarator target or function parameter): either a
simple `Identifier` node (with its own `loc.start`, `start`, `end`) or some
other pattern shape, which the analyzer skips. -/
inductive Pat where
| pid (name : String) (loc : Loc) (startIndex endIndex : Nat)
| pother
deriving DecidableEq, Repr

/-- Position data of a `VariableDeclarator` node itself (`p.node.loc.start`,
`p.node.start`, `p.node.end`), read by `hoistDeclarations`. -/
structure DtorInfo where
  pat : Pat
  loc : Loc
  startIndex : Nat
  endIndex : Nat
deriving DecidableEq, Repr

/-- The `id` Identifier node of a named `FunctionDeclaration` (the analyzer
reads only its `name`; the node still has its own position). -/
structure FnId where
  name : String
  loc : Loc
deriving DecidableEq, Repr

mutual

/-- Expression nodes. -/
inductive Expr where
| ident (name : String) (loc : Loc)
| lit
| member (obj : Expr) (prop : Expr) (computed : Bool)
| call (callee : Expr) (args : List Expr)
| binop (l r : Expr)
| arrow (params : List Pat) (body : ABody)
deriving Repr

/-- Body of an `ArrowFunctionExpression`: an expression or a block. -/
inductive ABody where
| abexpr (e : Expr)
| abblock (stmts : List Stmt)
deriving Repr

/-- A `VariableDeclarator`: its own position data and an optional init. -/
inductive Dtor where
| mk (info : DtorInfo) (init : Option Expr)
deriving Repr

/-- Statement nodes. -/
inductive Stmt where
| varDecl (kind : VKind) (decls : List Dtor)
| exprStmt (e : Expr)
| block (stmts : List Stmt)
| funDecl (fid : Option FnId) (floc : Loc) (fstart fend : Nat)
    (params : List Pat) (body : List Stmt)
| ret (arg : Option Expr)
deriving Repr

end

/-! ## Compiling the Babel traversal to an operation trace

The visitor's callbacks fire in a fixed order determined only by the AST
(depth-first, children in visitor-key order), so the run of `lintCode` on an
AST equals folding the four state primitives over a trace computed from the
AST alone. -/

/-- A primitive state operation of the analyzer. -/
inductive Op where
| enter
| exit
| decl (name : String) (kind : DKind) (loc : Loc) (startIndex endIndex : Nat)
| use (name : String) (loc : Loc)
deriving DecidableEq, Repr

/-- Apply one primitive operation to the state. -/
def applyOp (st : LState) : Op → LState
| .enter => enterScope st
| .exit => exitScope st
| .decl n k l s e => declare n k l s e st
| .use n l => use n l st

/-- Run a trace of operations. -/
def runOps (st : LState) (ops : List Op) : LState := ops.foldl applyOp st

/-- The arguments of one `declare` call made by `hoistDeclarations`. -/
structure DeclArgs where
  name : String
  kind : DKind
  loc : Loc
  startIndex : Nat
  endIndex : Nat
deriving DecidableEq, Repr

/-- View a hoisted declaration as a primitive operation. -/
def DeclArgs.toOp (d : DeclArgs) : Op :=
  Op.decl d.name d.kind d.loc d.startIndex d.endIndex

/-- The `declare` call `hoistDeclarations` makes for one declarator (skipped
when the target is not a simple identifier). -/
def dtorDecl (k : VKind) (info : DtorInfo) : List DeclArgs :=
  match info.pat with
  | .pid n _ _ _ => [⟨n, k.toDKind, info.loc, info.startIndex, info.endIndex⟩]
  | .pother => []

mutual

/-- Declarators found by `hoistDeclarations`' full-subtree `path.traverse`
below one statement, in traversal order. -/
def hoistStmt : Stmt → List DeclArgs
| .varDecl k ds => hoistDtors k ds
| .exprStmt e => hoistExpr e
| .block ss => hoistStmts ss
| .funDecl _ _ _ _ _ body => hoistStmts body
| .ret none => []
| .ret (some e) => hoistExpr e

/-- Hoist over a statement list. -/
def hoistStmts : List Stmt → List DeclArgs
| [] => []
| s :: ss => hoistStmt s ++ hoistStmts ss

/-- Hoist over a declarator list: each declarator is declared, then its init
subtree is scanned (Babel visits the declarator node before its children). -/
def hoistDtors : VKind → List Dtor → List DeclArgs
| _, [] => []
| k, .mk info init :: rest =>
  dtorDecl k info ++
    (match init with
     | none => []
     | some e => hoistExpr e) ++ hoistDtors k rest

/-- Hoist over an expression subtree. -/
def hoistExpr : Expr → List DeclArgs
| .ident _ _ => []
| .lit => []
| .member o p _ => hoistExpr o ++ hoistExpr p
| .call f args => hoistExpr f ++ hoistExprs args
| .binop l r => hoistExpr l ++ hoistExpr r
| .arrow _ body => hoistABody body

/-- Hoist over an expression list. -/
def hoistExprs : List Expr → List DeclArgs
| [] => []
| e :: es => hoistExpr e ++ hoistExprs es

/-- Hoist over an arrow body. -/
def hoistABody : ABody → List DeclArgs
| .abexpr e => hoistExpr e
| .abblock ss => hoistStmts ss

end

/-- The `declare` calls made for a parameter list (simple identifiers only),
with each parameter's own position data. -/
def paramOps : List Pat → List Op
| [] => []
| .pid n l s e :: ps => Op.decl n DKind.dparam l s e :: paramOps ps
| .pother :: ps => paramOps ps

mutual

/-- Trace of one statement's traversal. -/
def stmtOps : Stmt → List Op
| .varDecl _ ds => dtorOps ds
| .exprStmt e => exprOps e
| .block ss =>
  [Op.enter] ++ (hoistStmts ss).map DeclArgs.toOp ++ stmtsOps ss ++ [Op.exit]
| .funDecl fid floc fs fe params body =>
  (match fid with
   | some f => [Op.decl f.name DKind.dfun floc fs fe]
   | none => []) ++
  [Op.enter] ++ (hoistStmts body).map DeclArgs.toOp ++ paramOps params ++
  ([Op.enter] ++ (hoistStmts body).map DeclArgs.toOp ++ stmtsOps body ++ [Op.exit]) ++
  [Op.exit]
| .ret none => []
| .ret (some e) => exprOps e

/-- Trace of a statement list. -/
def stmtsOps : List Stmt → List Op
| [] => []
| s :: ss => stmtOps s ++ stmtsOps ss

/-- Trace of a declarator list: the binding target is the excluded `id` slot
(`parent.type === "VariableDeclarator" && parent.id === path.node`), so only
the init subtree produces operations. -/
def dtorOps : List Dtor → List Op
| [] => []
| .mk _ none :: rest => dtorOps rest
| .mk _ (some e) :: rest => exprOps e ++ dtorOps rest

/-- Trace of one expression's traversal.  An `Identifier` that is the
non-computed `property` of its parent `MemberExpression` is excluded. -/
def exprOps : Expr → List Op
| .ident n l => [Op.use n l]
| .lit => []
| .member o p computed =>
  exprOps o ++
    (if computed then exprOps p
     else
       match p with
       | .ident _ _ => []
       | _ => exprOps p)
| .call f args => exprOps f ++ exprsOps args
| .binop l r => exprOps l ++ exprOps r
| .arrow params body =>
  [Op.enter] ++ (hoistABody body).map DeclArgs.toOp ++ paramOps params ++
    abodyOps body ++ [Op.exit]

/-- Trace of an expression list. -/
def exprsOps : List Expr → List Op
| [] => []
| e :: es => exprOps e ++ exprsOps es

/-- Trace of an arrow body; a block body is a `BlockStatement`, so the
`BlockStatement` visitor fires for it and opens its own scope. -/
def abodyOps : ABody → List Op
| .abexpr e => exprOps e
| .abblock ss =>
  [Op.enter] ++ (hoistStmts ss).map DeclArgs.toOp ++ stmtsOps ss ++ [Op.exit]

end

/-- Trace of a whole `Program` node. -/
def programOps (prog : List Stmt) : List Op :=
  [Op.enter] ++ (hoistStmts prog).map DeclArgs.toOp ++ stmtsOps prog ++ [Op.exit]

/-- Outcome of the upstream `Babel.transform` parse: a program AST, or a
thrown parse error with message and optional location. -/
inductive ParseResult where
| ok (prog : List Stmt)
| fail (message : String) (loc : Option Loc)

/-- `lintCode`: on a successful parse, run the analyzer from a fresh state;
on a parse failure, the `catch` block produces the single syntax diagnostic
(`err.loc?.line ?? 1`, `err.loc?.column ?? 1`). -/
def lintCode : ParseResult → List LintError
| .ok prog => (runOps initState (programOps prog)).errors
| .fail msg loc? =>
  [{ message := msg
     line := (loc?.map Loc.line).getD 1
     column := (loc?.map Loc.column).getD 1
     severity := Sev.error
     ruleId := some "syntax" }]

/-! ## Specification-side definitions

Independent formulations of the behaviours the claims describe, to be
compared with the embedded code. -/

/-- Read-only resolution: the declaration the innermost-first stack search
finds, if any. -/
def findInStack (name : String) : List Scope → Option Decl
| [] => none
| sc :: rest =>
  match sc.declared.find? (fun p => p.1 = name) with
  | some (_, d) => some d
  | none => findInStack name rest

/-- Mark the name used in the innermost scope declaring it, leaving every
other scope untouched. -/
def markFound (name : String) : List Scope → List Scope
| [] => []
| sc :: rest =>
  if (sc.declared.find? (fun p => p.1 = name)).isSome
  then markUsed sc name :: rest
  else sc :: markFound name rest

/-- Whether an association list already carries a key. -/
def hasKey (acc : List (String × Decl)) (n : String) : Bool :=
  (acc.find? (fun p => p.1 = n)).isSome

/-- The scope entry a hoisted declaration creates. -/
def DeclArgs.toEntry (d : DeclArgs) : String × Decl :=
  (d.name, ⟨d.kind, d.loc, d.startIndex, d.endIndex⟩)

/-- First-wins deduplication by name, formulated by filtering later
occurrences away: the registered declarations are exactly the first
occurrence of each name, in order. -/
def keepFirstByName : List DeclArgs → List DeclArgs
| [] => []
| d :: ds => d :: keepFirstByName (ds.filter (fun d2 => d2.name ≠ d.name))
termination_by l => l.length
decreasing_by
  simp only [List.length_cons]
  exact Nat.lt_succ_of_le (List.length_filter_le _ _)

/-- The suggestion the spec describes for the edit-distance branch: among
qualifying candidates (length difference and Levenshtein distance both within
the bound), the first one attaining the smallest distance — formulated by
head recursion, where the earlier candidate wins ties. -/
def specBestP (name : String) (maxD : Nat) : List String → Option (String × Nat)
| [] => none
| c :: cs =>
  if lenDiff c name > maxD ∨ ¬ levenshtein name c ≤ maxD then
    specBestP name maxD cs
  else
    match specBestP name maxD cs with
    | none => some (c, levenshtein name c)
    | some (c2, d2) =>
      if levenshtein name c ≤ d2 then some (c, levenshtein name c)
      else some (c2, d2)

/-- How `bestLoop`'s running accumulator combines with the best of the
remaining candidates (the accumulator wins ties, being earlier). -/
def combineB : Option (String × Nat) → Option (String × Nat) → Option (String × Nat)
| none, r => r
| some p, none => some p
| some p, some q => if q.2 < p.2 then some q else some p

/-- The amended suggestion rule: the first candidate differing from the name
only by letter case if one exists, otherwise the first candidate attaining
the smallest in-bound Levenshtein distance, otherwise nothing. -/
def specSuggestion (name : String) (cands : List String) : Option String :=
  match cands.find? (fun c => toLowerStr c = toLowerStr name && c ≠ name) with
  | some c => some c
  | none => (specBestP name (maxDistance name) cands).map Prod.fst

/-- Syntactic classification of an identifier occurrence, per the exclusion
rules: a use, or one of the four excluded positions. -/
inductive PosKind where
| puse
| pdeclId
| pfnName
| pparam
| pmemberProp
deriving DecidableEq, Repr

/-- An identifier occurrence: name, position of the identifier node, and its
syntactic classification. -/
abbrev Occ : Type := String × Loc × PosKind

/-- Occurrences contributed by a binding pattern slot, tagged `tag`. -/
def identsPat (tag : PosKind) : Pat → List Occ
| .pid n l _ _ => [(n, l, tag)]
| .pother => []

/-- Occurrences of a parameter list (their own declaration sites). -/
def identsPats : List Pat → List Occ
| [] => []
| p :: ps => identsPat PosKind.pparam p ++ identsPats ps

mutual

/-- Every identifier occurrence below a statement, in traversal order, with
its syntactic classification. -/
def identsStmt : Stmt → List Occ
| .varDecl _ ds => identsDtors ds
| .exprStmt e => identsExpr e
| .block ss => identsStmts ss
| .funDecl fid _ _ _ params body =>
  (match fid with
   | some f => [(f.name, f.loc, PosKind.pfnName)]
   | none => []) ++ identsPats params ++ identsStmts body
| .ret none => []
| .ret (some e) => identsExpr e

/-- Occurrences of a statement list. -/
def identsStmts : List Stmt → List Occ
| [] => []
| s :: ss => identsStmt s ++ identsStmts ss

/-- Occurrences of a declarator list: each binding target (classified as a
declarator id), then the occurrences of its init. -/
def identsDtors : List Dtor → List Occ
| [] => []
| .mk info init :: rest =>
  identsPat PosKind.pdeclId info.pat ++
    (match init with
     | none => []
     | some e => identsExpr e) ++ identsDtors rest

/-- Occurrences of an expression.  The identifier that is the non-computed
`property` of a member expression is classified `pmemberProp`; every other
identifier reached here is a use. -/
def identsExpr : Expr → List Occ
| .ident n l => [(n, l, PosKind.puse)]
| .lit => []
| .member o p computed =>
  identsExpr o ++
    (if computed then identsExpr p
     else
       match p with
       | .ident n l => [(n, l, PosKind.pmemberProp)]
       | _ => identsExpr p)
| .call f args => identsExpr f ++ identsExprs args
| .binop l r => identsExpr l ++ identsExpr r
| .arrow params body => identsPats params ++ identsABody body

/-- Occurrences of an expression list. -/
def identsExprs : List Expr → List Occ
| [] => []
| e :: es => identsExpr e ++ identsExprs es

/-- Occurrences of an arrow body. -/
def identsABody : ABody → List Occ
| .abexpr e => identsExpr e
| .abblock ss => identsStmts ss

end

/-- Occurrences of a whole program. -/
def identsProgram (prog : List Stmt) : List Occ := identsStmts prog

/-- The resolution call an operation performs, if any. -/
def useOf : Op → Option (String × Loc)
| .use n l => some (n, l)
| _ => none

/-- The resolution calls an operation trace performs, in order. -/
def usesOf (ops : List Op) : List (String × Loc) :=
  ops.filterMap useOf

/-- The reference an occurrence contributes when it is classified a use. -/
def occUse (occ : Occ) : Option (String × Loc) :=
  match occ.2.2 with
  | PosKind.puse => some (occ.1, occ.2.1)
  | _ => none

/-- The occurrences the claim designates as uses, in order. -/
def specUses (occs : List Occ) : List (String × Loc) :=
  occs.filterMap occUse

/-- The start offset of a diagnostic's fix, if it has one. -/
def fixStart (d : LintError) : Option Nat := d.fix.map Fix.start

/-! ## Concrete example programs -/

/-- `{ let x; }` — a block containing `let x;`, the declarator `x` spanning
offsets `[6, 7)` at line 1 column 6. -/
def P0 : List Stmt :=
  [Stmt.block [Stmt.varDecl VKind.vlet
    [Dtor.mk ⟨Pat.pid "x" ⟨1, 6⟩ 6 7, ⟨1, 6⟩, 6, 7⟩ none]]]

/-- `let AB; let aB; ab;` — two declarations differing from the unresolved
name `ab` only by case, then a reference to the undeclared `ab`. -/
def P2 : List Stmt :=
  [Stmt.varDecl VKind.vlet [Dtor.mk ⟨Pat.pid "AB" ⟨1, 4⟩ 4 6, ⟨1, 4⟩, 4, 6⟩ none],
   Stmt.varDecl VKind.vlet [Dtor.mk ⟨Pat.pid "aB" ⟨1, 12⟩ 12 14, ⟨1, 12⟩, 12, 14⟩ none],
   Stmt.exprStmt (Expr.ident "ab" ⟨1, 16⟩)]

/-- `{ let a; } { let a; }` — the same name declared (and left unused) in two
sibling block scopes, with distinct declarator spans. -/
def P4 : List Stmt :=
  [Stmt.block [Stmt.varDecl VKind.vlet
    [Dtor.mk ⟨Pat.pid "a" ⟨1, 6⟩ 6 7, ⟨1, 6⟩, 6, 7⟩ none]],
   Stmt.block [Stmt.varDecl VKind.vlet
    [Dtor.mk ⟨Pat.pid "a" ⟨1, 17⟩ 17 18, ⟨1, 17⟩, 17, 18⟩ none]]]

/-- `let a; let a;` — the same name declared twice in one scope, never
referenced. -/
def P6 : List Stmt :=
  [Stmt.varDecl VKind.vlet [Dtor.mk ⟨Pat.pid "a" ⟨1, 4⟩ 4 5, ⟨1, 4⟩, 4, 5⟩ none],
   Stmt.varDecl VKind.vlet [Dtor.mk ⟨Pat.pid "a" ⟨1, 11⟩ 11 12, ⟨1, 11⟩, 11, 12⟩ none]]

/-- `x;` on line 1, then `let x = 1;` on line 2 — a forward reference to a
`let` binding across a line boundary. -/
def P3 : List Stmt :=
  [Stmt.exprStmt (Expr.ident "x" ⟨1, 0⟩),
   Stmt.varDecl VKind.vlet [Dtor.mk ⟨Pat.pid "x" ⟨2, 4⟩ 7 12, ⟨2, 4⟩, 7, 12⟩
     (some Expr.lit)]]

/-! ## Helper lemmas -/

theorem runOps_nil (st : LState) : runOps st [] = st := rfl

theorem runOps_cons (st : LState) (op : Op) (ops : List Op) :
    runOps st (op :: ops) = runOps (applyOp st op) ops := rfl

theorem runOps_append (st : LState) (a b : List Op) :
    runOps st (a ++ b) = runOps (runOps st a) b :=
  List.foldl_append ..

/-- The search loop of `use` equals read-only resolution paired with marking
the found scope. -/
theorem useLoop_eq (name : String) (loc : Loc) (stack : List Scope) :
    useLoop name loc stack =
      (findInStack name stack).map
        (fun decl => (markFound name stack, tdzCheck name loc decl)) := by
  induction stack with
  | nil => rfl
  | cons sc rest ih =>
    cases h : sc.declared.find? (fun p => p.1 = name) with
    | some kd =>
      obtain ⟨k, d⟩ := kd
      simp [useLoop, findInStack, markFound, h]
    | none =>
      simp only [useLoop, findInStack, markFound, h, ih]
      cases findInStack name rest <;> simp

/-- Complete characterization of `use`: resolution marks the innermost
declaring scope used and runs the TDZ check; an unresolved ambient name
leaves the state unchanged; an unresolved non-ambient name appends exactly
the undefined-identifier diagnostic. -/
theorem use_spec (name : String) (loc : Loc) (st : LState) :
    use name loc st =
      match findInStack name st.scopeStack with
      | some decl =>
        { st with scopeStack := markFound name st.scopeStack
                  errors := st.errors ++ tdzCheck name loc decl }
      | none =>
        if name ∈ GLOBALS then st
        else { st with errors :=
                 st.errors ++ [notDefinedDiag st.scopeStack name loc] } := by
  unfold use
  rw [useLoop_eq]
  cases findInStack name st.scopeStack <;> simp

/-- A name wrapped in single quotes followed by a fixed tail determines the
name. -/
theorem quoted_inj {a b : String} (tail : String)
    (h : sq ++ a ++ sq ++ tail = sq ++ b ++ sq ++ tail) : a = b := by
  have hd : (sq ++ a ++ sq ++ tail).data = (sq ++ b ++ sq ++ tail).data := by rw [h]
  simp only [String.data_append] at hd
  have h1 : sq.data ++ a.data ++ sq.data = sq.data ++ b.data ++ sq.data :=
    List.append_cancel_right hd
  have h2 : sq.data ++ a.data = sq.data ++ b.data :=
    List.append_cancel_right h1
  exact String.ext (List.append_cancel_left h2)

/-- Unused-declaration messages for different names differ. -/
theorem unusedMsg_inj {a b : String} (h : unusedMsg a = unusedMsg b) : a = b := by
  unfold unusedMsg at h
  exact quoted_inj _ (by
    simpa [String.append_assoc] using h)

/-- Every diagnostic `exitScope`'s loop emits comes from a declaration of the
scope whose name was not marked used. -/
theorem emitUnused_shape (decls : List (String × Decl)) (used : List String) :
    ∀ rep, ∀ d ∈ (emitUnused decls used rep).1,
      ∃ m dm, (m, dm) ∈ decls ∧ m ∉ used ∧ d = unusedDiag m dm := by
  induction decls with
  | nil => intro rep d hd; simp [emitUnused] at hd
  | cons p rest ih =>
    intro rep d hd
    obtain ⟨m, dm⟩ := p
    by_cases hu : m ∈ used
    · simp only [emitUnused, if_pos hu] at hd
      obtain ⟨m2, dm2, hmem, h1, h2⟩ := ih rep d hd
      exact ⟨m2, dm2, by simp [hmem], h1, h2⟩
    · by_cases hr : dm.startIndex ∈ rep
      · simp only [emitUnused, if_neg hu, if_pos hr] at hd
        obtain ⟨m2, dm2, hmem, h1, h2⟩ := ih rep d hd
        exact ⟨m2, dm2, by simp [hmem], h1, h2⟩
      · simp only [emitUnused, if_neg hu, if_neg hr, List.mem_cons] at hd
        rcases hd with rfl | hd
        · exact ⟨m, dm, by simp, hu, rfl⟩
        · obtain ⟨m2, dm2, hmem, h1, h2⟩ := ih (rep ++ [dm.startIndex]) d hd
          exact ⟨m2, dm2, by simp [hmem], h1, h2⟩

/-- `exitScope`'s loop extends the dedup set by exactly the start offsets of
the diagnostics it emits; those offsets are fresh and pairwise distinct. -/
theorem emitUnused_starts (decls : List (String × Decl)) (used : List String) :
    ∀ rep, ∃ ns : List Nat,
      (emitUnused decls used rep).2 = rep ++ ns ∧
      ns.Nodup ∧ (∀ s ∈ ns, s ∉ rep) ∧
      (emitUnused decls used rep).1.map fixStart = ns.map some := by
  induction decls with
  | nil => intro rep; exact ⟨[], by simp [emitUnused]⟩
  | cons p rest ih =>
    intro rep
    obtain ⟨m, dm⟩ := p
    by_cases hu : m ∈ used
    · simpa only [emitUnused, if_pos hu] using ih rep
    · by_cases hr : dm.startIndex ∈ rep
      · simpa only [emitUnused, if_neg hu, if_pos hr] using ih rep
      · obtain ⟨ns, h2, hnd, hni, hmap⟩ := ih (rep ++ [dm.startIndex])
        refine ⟨dm.startIndex :: ns, ?_, ?_, ?_, ?_⟩
        · simp only [emitUnused, if_neg hu, if_neg hr]
          simpa using h2
        · refine List.nodup_cons.mpr ⟨fun hmem => ?_, hnd⟩
          exact hni _ hmem (by simp)
        · intro s hs
          rcases List.mem_cons.mp hs with rfl | hs
          · exact hr
          · intro hsrep
            exact hni s hs (by simp [hsrep])
        · simp only [emitUnused, if_neg hu, if_neg hr, List.map_cons, hmap,
            fixStart, unusedDiag]
          rfl

/-- Every primitive operation only appends to the diagnostic list. -/
theorem applyOp_errors (st : LState) (op : Op) :
    ∃ tl, (applyOp st op).errors = st.errors ++ tl := by
  cases op with
  | enter => exact ⟨[], by simp [applyOp, enterScope]⟩
  | exit =>
    show ∃ tl, (exitScope st).errors = st.errors ++ tl
    unfold exitScope
    cases st.scopeStack with
    | nil => exact ⟨[], by simp⟩
    | cons sc rest => exact ⟨_, rfl⟩
  | decl n k l s e =>
    show ∃ tl, (declare n k l s e st).errors = st.errors ++ tl
    unfold declare
    cases st.scopeStack with
    | nil => exact ⟨[], by simp⟩
    | cons sc rest =>
      by_cases h : (sc.declared.find? (fun p => p.1 = n)).isSome
      · exact ⟨[], by simp [h]⟩
      · exact ⟨[], by simp [h]⟩
  | use n l =>
    show ∃ tl, (use n l st).errors = st.errors ++ tl
    rw [use_spec]
    cases findInStack n st.scopeStack with
    | some decl => exact ⟨_, rfl⟩
    | none =>
      by_cases h : n ∈ GLOBALS
      · exact ⟨[], by simp [h]⟩
      · exact ⟨[notDefinedDiag st.scopeStack n l], by simp [h]⟩

/-- Running a trace only appends to the diagnostic list: no diagnostic stops
the traversal, and the whole accumulated list is returned. -/
theorem runOps_errors (ops : List Op) :
    ∀ st, ∃ tl, (runOps st ops).errors = st.errors ++ tl := by
  induction ops with
  | nil => exact fun st => ⟨[], by simp [runOps]⟩
  | cons op ops ih =>
    intro st
    obtain ⟨t1, h1⟩ := applyOp_errors st op
    obtain ⟨t2, h2⟩ := ih (applyOp st op)
    exact ⟨t1 ++ t2, by rw [runOps_cons, h2, h1, List.append_assoc]⟩

theorem DeclArgs.toEntry_fst (d : DeclArgs) : d.toEntry.1 = d.name := rfl

theorem hasKey_append_single (acc : List (String × Decl)) (e : String × Decl)
    (n : String) :
    hasKey (acc ++ [e]) n = (hasKey acc n || decide (e.1 = n)) := by
  induction acc with
  | nil =>
    by_cases h : e.1 = n <;> simp [hasKey, List.find?, h]
  | cons a as ih =>
    by_cases h : a.1 = n
    · simp [hasKey, List.find?, h]
    · simpa [hasKey, List.find?, h] using ih

theorem filter_hasKey_append (ds : List DeclArgs) (acc : List (String × Decl))
    (d : DeclArgs) :
    ds.filter (fun x => !(hasKey (acc ++ [d.toEntry]) x.name)) =
      (ds.filter (fun x => !(hasKey acc x.name))).filter
        (fun x => x.name ≠ d.name) := by
  rw [List.filter_filter]
  apply List.filter_congr
  intro x _
  rw [hasKey_append_single, DeclArgs.toEntry_fst]
  by_cases h1 : hasKey acc x.name <;> by_cases h2 : x.name = d.name
  · simp [h1, h2]
  · simp [h1, h2]
  · simp [h1, h2]
  · have h3 : ¬ d.name = x.name := fun h => h2 h.symm
    simp [h1, h2, h3]

/-- Folding a list of `declare` operations over a state extends the innermost
scope's declarations by exactly the first occurrence of each not-yet-declared
name, in order; nothing else changes. -/
theorem declFold (ds : List DeclArgs) :
    ∀ (acc : List (String × Decl)) (used : List String) (rest : List Scope)
      (errs : List LintError) (rep : List Nat),
      runOps ⟨errs, ⟨acc, used⟩ :: rest, rep⟩ (ds.map DeclArgs.toOp) =
        ⟨errs,
         ⟨acc ++ (keepFirstByName
            (ds.filter (fun d => !(hasKey acc d.name)))).map DeclArgs.toEntry,
          used⟩ :: rest,
         rep⟩ := by
  induction ds with
  | nil => intro acc used rest errs rep; simp [runOps, keepFirstByName]
  | cons d ds ih =>
    intro acc used rest errs rep
    simp only [List.map_cons, runOps_cons]
    by_cases h : hasKey acc d.name
    · have happ : applyOp ⟨errs, ⟨acc, used⟩ :: rest, rep⟩ d.toOp =
          ⟨errs, ⟨acc, used⟩ :: rest, rep⟩ := by
        have h2 : (acc.find? (fun p => p.1 = d.name)).isSome := h
        simp [applyOp, DeclArgs.toOp, declare, h2]
      rw [happ, ih]
      simp [List.filter_cons, h]
    · have happ : applyOp ⟨errs, ⟨acc, used⟩ :: rest, rep⟩ d.toOp =
          ⟨errs, ⟨acc ++ [d.toEntry], used⟩ :: rest, rep⟩ := by
        have h2 : ¬ (acc.find? (fun p => p.1 = d.name)).isSome := by
          simpa [hasKey] using h
        simp [applyOp, DeclArgs.toOp, declare, h2, DeclArgs.toEntry]
      rw [happ, ih]
      simp only [List.filter_cons, h, Bool.not_false, if_pos]
      rw [keepFirstByName, filter_hasKey_append]
      simp

/-- The candidate loop of `getSuggestion`, which only replaces its running
best on a strict improvement, computes the first candidate attaining the
minimal in-bound distance (combined with whatever the accumulator held). -/
theorem bestLoop_eq (name : String) (maxD : Nat) (cs : List String) :
    ∀ b, bestLoop name maxD cs b = combineB b (specBestP name maxD cs) := by
  induction cs with
  | nil => intro b; cases b <;> rfl
  | cons c cs ih =>
    intro b
    by_cases hq : lenDiff c name > maxD
    · have hguard : lenDiff c name > maxD ∨ ¬ levenshtein name c ≤ maxD :=
        Or.inl hq
      simp only [bestLoop, if_pos hq, specBestP, if_pos hguard]
      exact ih b
    · by_cases hd : levenshtein name c ≤ maxD
      · have hguard : ¬ (lenDiff c name > maxD ∨ ¬ levenshtein name c ≤ maxD) :=
          fun hor => hor.elim hq (fun hh => hh hd)
        simp only [bestLoop, if_neg hq, if_pos hd, specBestP, if_neg hguard]
        cases b with
        | none =>
          rw [ih]
          cases hsp : specBestP name maxD cs with
          | none => simp [combineB]
          | some p =>
            obtain ⟨c2, d2⟩ := p
            simp only [combineB] <;>
              first
              | rfl
              | (split_ifs <;> first | rfl | omega | (exfalso; omega))
        | some p =>
          obtain ⟨nb, bd⟩ := p
          simp only [ih]
          cases hsp : specBestP name maxD cs with
          | none =>
            simp only [combineB] <;>
              first
              | rfl
              | (split_ifs <;> first | rfl | omega | (exfalso; omega))
          | some q =>
            obtain ⟨c2, d2⟩ := q
            simp only [combineB] <;>
              first
              | rfl
              | (split_ifs <;>
                  simp only [combineB] <;>
                  first
                  | rfl
                  | omega
                  | (exfalso; omega)
                  | (split_ifs <;> first | rfl | omega | (exfalso; omega)))
      · have hguard : lenDiff c name > maxD ∨ ¬ levenshtein name c ≤ maxD :=
          Or.inr hd
        simp only [bestLoop, if_neg hq, if_neg hd, specBestP, if_pos hguard]
        exact ih b

/-- `getSuggestion` implements the amended suggestion rule. -/
theorem getSuggestion_eq_spec (stack : List Scope) (name : String) :
    getSuggestion stack name = specSuggestion name (candidateList stack) := by
  unfold getSuggestion specSuggestion
  simp only [ne_eq, decide_not]
  cases h : (candidateList stack).find?
      (fun c => toLowerStr c = toLowerStr name && !(decide (c = name))) with
  | some c => simp [h]
  | none =>
    simp only [h]
    rw [bestLoop_eq]
    cases specBestP name (maxDistance name) (candidateList stack) <;>
      simp [combineB]

@[simp] theorem usesOf_nil : usesOf [] = [] := rfl

@[simp] theorem usesOf_append (a b : List Op) :
    usesOf (a ++ b) = usesOf a ++ usesOf b :=
  List.filterMap_append ..

@[simp] theorem usesOf_enter : usesOf [Op.enter] = [] := rfl

@[simp] theorem usesOf_exit : usesOf [Op.exit] = [] := rfl

@[simp] theorem usesOf_decl (n : String) (k : DKind) (l : Loc) (s e : Nat) :
    usesOf [Op.decl n k l s e] = [] := rfl

@[simp] theorem usesOf_use (n : String) (l : Loc) :
    usesOf [Op.use n l] = [(n, l)] := rfl

@[simp] theorem usesOf_declMap (ds : List DeclArgs) :
    usesOf (ds.map DeclArgs.toOp) = [] := by
  induction ds with
  | nil => rfl
  | cons d ds ih =>
    simpa [usesOf, List.filterMap_cons, DeclArgs.toOp, useOf] using ih

@[simp] theorem usesOf_paramOps (ps : List Pat) :
    usesOf (paramOps ps) = [] := by
  induction ps with
  | nil => rfl
  | cons p ps ih =>
    cases p <;> simpa [paramOps, usesOf, List.filterMap_cons, useOf] using ih

@[simp] theorem specUses_nil : specUses [] = [] := rfl

@[simp] theorem specUses_append (a b : List Occ) :
    specUses (a ++ b) = specUses a ++ specUses b :=
  List.filterMap_append ..

theorem specUses_pat_skip (tag : PosKind) (p : Pat) (h : tag ≠ PosKind.puse) :
    specUses (identsPat tag p) = [] := by
  cases p with
  | pother => rfl
  | pid n l s e =>
    cases tag <;> first
    | exact absurd rfl h
    | simp [identsPat, specUses, occUse, List.filterMap_cons]

@[simp] theorem specUses_identsPats (ps : List Pat) :
    specUses (identsPats ps) = [] := by
  induction ps with
  | nil => rfl
  | cons p ps ih =>
    rw [identsPats, specUses_append,
      specUses_pat_skip PosKind.pparam p (by simp), ih]
    rfl

@[simp] theorem specUses_memberProp (n : String) (l : Loc) :
    specUses [(n, l, PosKind.pmemberProp)] = [] := rfl

@[simp] theorem specUses_fnName (n : String) (l : Loc) :
    specUses [(n, l, PosKind.pfnName)] = [] := rfl

@[simp] theorem specUses_use_singleton (n : String) (l : Loc) :
    specUses [(n, l, PosKind.puse)] = [(n, l)] := rfl

mutual

/-- The resolution calls a statement's trace performs are exactly its
occurrences not in excluded positions. -/
theorem stmtOps_uses : ∀ s : Stmt, usesOf (stmtOps s) = specUses (identsStmt s)
| .varDecl k ds => dtorOps_uses ds
| .exprStmt e => exprOps_uses e
| .block ss => by
  have h1 : stmtOps (Stmt.block ss) =
      [Op.enter] ++ (hoistStmts ss).map DeclArgs.toOp ++ stmtsOps ss ++
        [Op.exit] := rfl
  have h2 : identsStmt (Stmt.block ss) = identsStmts ss := rfl
  rw [h1, h2]
  simp only [usesOf_append, usesOf_enter, usesOf_exit, usesOf_declMap,
    List.nil_append, List.append_nil]
  exact stmtsOps_uses ss
| .funDecl fid floc fs fe params body => by
  cases fid with
  | none =>
    have h1 : stmtOps (Stmt.funDecl none floc fs fe params body) =
        [] ++
        [Op.enter] ++ (hoistStmts body).map DeclArgs.toOp ++ paramOps params ++
        ([Op.enter] ++ (hoistStmts body).map DeclArgs.toOp ++ stmtsOps body ++
          [Op.exit]) ++ [Op.exit] := rfl
    have h2 : identsStmt (Stmt.funDecl none floc fs fe params body) =
        [] ++ identsPats params ++ identsStmts body := rfl
    rw [h1, h2]
    simp only [usesOf_append, usesOf_enter, usesOf_exit, usesOf_declMap,
      usesOf_paramOps, usesOf_nil, specUses_append, specUses_identsPats,
      specUses_nil, List.nil_append, List.append_nil]
    exact stmtsOps_uses body
  | some f =>
    have h1 : stmtOps (Stmt.funDecl (some f) floc fs fe params body) =
        [Op.decl f.name DKind.dfun floc fs fe] ++
        [Op.enter] ++ (hoistStmts body).map DeclArgs.toOp ++ paramOps params ++
        ([Op.enter] ++ (hoistStmts body).map DeclArgs.toOp ++ stmtsOps body ++
          [Op.exit]) ++ [Op.exit] := rfl
    have h2 : identsStmt (Stmt.funDecl (some f) floc fs fe params body) =
        [(f.name, f.loc, PosKind.pfnName)] ++ identsPats params ++
          identsStmts body := rfl
    rw [h1, h2]
    simp only [usesOf_append, usesOf_enter, usesOf_exit, usesOf_declMap,
      usesOf_paramOps, usesOf_decl, specUses_append, specUses_identsPats,
      specUses_fnName, List.nil_append, List.append_nil]
    exact stmtsOps_uses body
| .ret none => rfl
| .ret (some e) => exprOps_uses e

theorem stmtsOps_uses :
    ∀ ss : List Stmt, usesOf (stmtsOps ss) = specUses (identsStmts ss)
| [] => rfl
| s :: ss => by
  have h1 : stmtsOps (s :: ss) = stmtOps s ++ stmtsOps ss := rfl
  have h2 : identsStmts (s :: ss) = identsStmt s ++ identsStmts ss := rfl
  rw [h1, h2, usesOf_append, specUses_append, stmtOps_uses s, stmtsOps_uses ss]

theorem dtorOps_uses :
    ∀ ds : List Dtor, usesOf (dtorOps ds) = specUses (identsDtors ds)
| [] => rfl
| .mk info none :: rest => by
  have h1 : dtorOps (Dtor.mk info none :: rest) = dtorOps rest := rfl
  have h2 : identsDtors (Dtor.mk info none :: rest) =
      identsPat PosKind.pdeclId info.pat ++ [] ++ identsDtors rest := rfl
  rw [h1, h2]
  simp only [specUses_append, specUses_nil,
    specUses_pat_skip PosKind.pdeclId info.pat (by simp), List.nil_append,
    List.append_nil]
  exact dtorOps_uses rest
| .mk info (some e) :: rest => by
  have h1 : dtorOps (Dtor.mk info (some e) :: rest) =
      exprOps e ++ dtorOps rest := rfl
  have h2 : identsDtors (Dtor.mk info (some e) :: rest) =
      identsPat PosKind.pdeclId info.pat ++ identsExpr e ++
        identsDtors rest := rfl
  rw [h1, h2]
  simp only [usesOf_append, specUses_append,
    specUses_pat_skip PosKind.pdeclId info.pat (by simp), List.nil_append]
  rw [exprOps_uses e, dtorOps_uses rest]

theorem exprOps_uses : ∀ e : Expr, usesOf (exprOps e) = specUses (identsExpr e)
| .ident n l => rfl
| .lit => rfl
| .member o p true => by
  have h1 : exprOps (Expr.member o p true) = exprOps o ++ exprOps p := rfl
  have h2 : identsExpr (Expr.member o p true) =
      identsExpr o ++ identsExpr p := rfl
  rw [h1, h2, usesOf_append, specUses_append, exprOps_uses o, exprOps_uses p]
| .member o (Expr.ident n l) false => by
  have h1 : exprOps (Expr.member o (Expr.ident n l) false) =
      exprOps o ++ [] := rfl
  have h2 : identsExpr (Expr.member o (Expr.ident n l) false) =
      identsExpr o ++ [(n, l, PosKind.pmemberProp)] := rfl
  rw [h1, h2, usesOf_append, specUses_append, exprOps_uses o]
  simp
| .member o Expr.lit false => by
  have h1 : exprOps (Expr.member o Expr.lit false) =
      exprOps o ++ exprOps Expr.lit := rfl
  have h2 : identsExpr (Expr.member o Expr.lit false) =
      identsExpr o ++ identsExpr Expr.lit := rfl
  rw [h1, h2, usesOf_append, specUses_append, exprOps_uses o]
  rfl
| .member o (Expr.member o2 p2 c2) false => by
  have h1 : exprOps (Expr.member o (Expr.member o2 p2 c2) false) =
      exprOps o ++ exprOps (Expr.member o2 p2 c2) := rfl
  have h2 : identsExpr (Expr.member o (Expr.member o2 p2 c2) false) =
      identsExpr o ++ identsExpr (Expr.member o2 p2 c2) := rfl
  rw [h1, h2, usesOf_append, specUses_append, exprOps_uses o,
    exprOps_uses (Expr.member o2 p2 c2)]
| .member o (Expr.call f args) false => by
  have h1 : exprOps (Expr.member o (Expr.call f args) false) =
      exprOps o ++ exprOps (Expr.call f args) := rfl
  have h2 : identsExpr (Expr.member o (Expr.call f args) false) =
      identsExpr o ++ identsExpr (Expr.call f args) := rfl
  rw [h1, h2, usesOf_append, specUses_append, exprOps_uses o,
    exprOps_uses (Expr.call f args)]
| .member o (Expr.binop a b) false => by
  have h1 : exprOps (Expr.member o (Expr.binop a b) false) =
      exprOps o ++ exprOps (Expr.binop a b) := rfl
  have h2 : identsExpr (Expr.member o (Expr.binop a b) false) =
      identsExpr o ++ identsExpr (Expr.binop a b) := rfl
  rw [h1, h2, usesOf_append, specUses_append, exprOps_uses o,
    exprOps_uses (Expr.binop a b)]
| .member o (Expr.arrow params body) false => by
  have h1 : exprOps (Expr.member o (Expr.arrow params body) false) =
      exprOps o ++ exprOps (Expr.arrow params body) := rfl
  have h2 : identsExpr (Expr.member o (Expr.arrow params body) false) =
      identsExpr o ++ identsExpr (Expr.arrow params body) := rfl
  rw [h1, h2, usesOf_append, specUses_append, exprOps_uses o,
    exprOps_uses (Expr.arrow params body)]
| .call f args => by
  have h1 : exprOps (Expr.call f args) = exprOps f ++ exprsOps args := rfl
  have h2 : identsExpr (Expr.call f args) =
      identsExpr f ++ identsExprs args := rfl
  rw [h1, h2, usesOf_append, specUses_append, exprOps_uses f,
    exprsOps_uses args]
| .binop l r => by
  have h1 : exprOps (Expr.binop l r) = exprOps l ++ exprOps r := rfl
  have h2 : identsExpr (Expr.binop l r) = identsExpr l ++ identsExpr r := rfl
  rw [h1, h2, usesOf_append, specUses_append, exprOps_uses l, exprOps_uses r]
| .arrow params body => by
  have h1 : exprOps (Expr.arrow params body) =
      [Op.enter] ++ (hoistABody body).map DeclArgs.toOp ++ paramOps params ++
        abodyOps body ++ [Op.exit] := rfl
  have h2 : identsExpr (Expr.arrow params body) =
      identsPats params ++ identsABody body := rfl
  rw [h1, h2]
  simp only [usesOf_append, usesOf_enter, usesOf_exit, usesOf_declMap,
    usesOf_paramOps, specUses_append, specUses_identsPats, List.nil_append,
    List.append_nil]
  exact abodyOps_uses body

theorem exprsOps_uses :
    ∀ es : List Expr, usesOf (exprsOps es) = specUses (identsExprs es)
| [] => rfl
| e :: es => by
  have h1 : exprsOps (e :: es) = exprOps e ++ exprsOps es := rfl
  have h2 : identsExprs (e :: es) = identsExpr e ++ identsExprs es := rfl
  rw [h1, h2, usesOf_append, specUses_append, exprOps_uses e,
    exprsOps_uses es]

theorem abodyOps_uses :
    ∀ b : ABody, usesOf (abodyOps b) = specUses (identsABody b)
| .abexpr e => exprOps_uses e
| .abblock ss => by
  have h1 : abodyOps (ABody.abblock ss) =
      [Op.enter] ++ (hoistStmts ss).map DeclArgs.toOp ++ stmtsOps ss ++
        [Op.exit] := rfl
  have h2 : identsABody (ABody.abblock ss) = identsStmts ss := rfl
  rw [h1, h2]
  simp only [usesOf_append, usesOf_enter, usesOf_exit, usesOf_declMap,
    List.nil_append, List.append_nil]
  exact stmtsOps_uses ss

end

/-! ## The fix/deduplication invariant -/

/-- Invariant of the analyzer state: a diagnostic carries a fix exactly when
it is a warning; every fix is a removal whose start offset is recorded in the
dedup set; and the recorded fixes have pairwise distinct start offsets. -/
def FixInv (st : LState) : Prop :=
  (∀ d ∈ st.errors, ∀ f, d.fix = some f →
    f.start ∈ st.reportedUnused ∧ f.ftype = FixKind.remove ∧
    d.severity = Sev.warning) ∧
  (∀ d ∈ st.errors, d.severity = Sev.warning → d.fix.isSome) ∧
  st.errors.Pairwise
    (fun d1 d2 => ∀ f1 f2, d1.fix = some f1 → d2.fix = some f2 →
      f1.start ≠ f2.start)

theorem FixInv_append_errors (st : LState) (tl : List LintError)
    (h : FixInv st)
    (htl : ∀ d ∈ tl, d.fix = none ∧ d.severity = Sev.error)
    (stack' : List Scope) :
    FixInv ⟨st.errors ++ tl, stack', st.reportedUnused⟩ := by
  obtain ⟨h1, h2, h3⟩ := h
  refine ⟨?_, ?_, ?_⟩
  · intro d hd f hf
    rcases List.mem_append.mp hd with hd | hd
    · exact h1 d hd f hf
    · rw [(htl d hd).1] at hf; cases hf
  · intro d hd hw
    rcases List.mem_append.mp hd with hd | hd
    · exact h2 d hd hw
    · rw [(htl d hd).2] at hw; cases hw
  · rw [List.pairwise_append]
    refine ⟨h3, ?_, ?_⟩
    · refine List.pairwise_of_forall_mem_list ?_
      intro d1 _ d2 hd2 f1 f2 _ hf2
      rw [(htl d2 hd2).1] at hf2; cases hf2
    · intro d1 _ d2 hd2 f1 f2 _ hf2
      rw [(htl d2 hd2).1] at hf2; cases hf2

/-- Every primitive operation preserves the fix/deduplication invariant. -/
theorem applyOp_FixInv (st : LState) (op : Op) (h : FixInv st) :
    FixInv (applyOp st op) := by
  obtain ⟨errs, stack, rep⟩ := st
  obtain ⟨h1, h2, h3⟩ := h
  cases op with
  | enter => exact ⟨h1, h2, h3⟩
  | decl n k l s e =>
    show FixInv (declare n k l s e ⟨errs, stack, rep⟩)
    cases stack with
    | nil => exact ⟨h1, h2, h3⟩
    | cons sc rest =>
      by_cases hk : (sc.declared.find? (fun p => p.1 = n)).isSome
      · have heq : declare n k l s e ⟨errs, sc :: rest, rep⟩ =
            ⟨errs, sc :: rest, rep⟩ := by
          simp [declare, hk]
        rw [heq]
        exact ⟨h1, h2, h3⟩
      · have heq : declare n k l s e ⟨errs, sc :: rest, rep⟩ =
            ⟨errs,
             { sc with declared := sc.declared ++ [(n, ⟨k, l, s, e⟩)] } :: rest,
             rep⟩ := by
          simp [declare, hk]
        rw [heq]
        exact ⟨h1, h2, h3⟩
  | use n l =>
    show FixInv (use n l ⟨errs, stack, rep⟩)
    rw [use_spec]
    cases hf : findInStack n stack with
    | some decl =>
      refine FixInv_append_errors ⟨errs, stack, rep⟩ _ ⟨h1, h2, h3⟩ ?_ _
      intro d hd
      unfold tdzCheck at hd
      by_cases hc : (decl.kind = DKind.dlet ∨ decl.kind = DKind.dconst ∨
          decl.kind = DKind.dparam) ∧ l.line < decl.loc.line
      · rw [if_pos hc] at hd
        rcases List.mem_singleton.mp hd with rfl
        exact ⟨rfl, rfl⟩
      · rw [if_neg hc] at hd
        cases hd
    | none =>
      by_cases hg : n ∈ GLOBALS
      · simp only [hg, if_true]
        exact ⟨h1, h2, h3⟩
      · simp only [hg, if_false]
        refine FixInv_append_errors ⟨errs, stack, rep⟩ _ ⟨h1, h2, h3⟩ ?_ _
        intro d hd
        rcases List.mem_singleton.mp hd with rfl
        exact ⟨rfl, rfl⟩
  | exit =>
    show FixInv (exitScope ⟨errs, stack, rep⟩)
    cases stack with
    | nil => exact ⟨h1, h2, h3⟩
    | cons sc rest =>
      obtain ⟨ns, hrep, hnd, hfresh, hmap⟩ :=
        emitUnused_starts sc.declared sc.used rep
      have hshape := emitUnused_shape sc.declared sc.used rep
      have hstart : ∀ d ∈ (emitUnused sc.declared sc.used rep).1,
          ∀ f, d.fix = some f → f.start ∈ ns := by
        intro d hd f hfd
        have hmem : fixStart d ∈
            (emitUnused sc.declared sc.used rep).1.map fixStart :=
          List.mem_map_of_mem _ hd
        rw [hmap] at hmem
        obtain ⟨s, hs1, hs2⟩ := List.mem_map.mp hmem
        have : some s = some f.start := by
          rw [hs2, fixStart, hfd]; rfl
        rwa [Option.some_inj.mp this] at hs1
      have hexit : exitScope ⟨errs, sc :: rest, rep⟩ =
          ⟨errs ++ (emitUnused sc.declared sc.used rep).1, rest,
           (emitUnused sc.declared sc.used rep).2⟩ := rfl
      rw [hexit]
      refine ⟨?_, ?_, ?_⟩
      · intro d hd f hfd
        rcases List.mem_append.mp hd with hd | hd
        · obtain ⟨hin, hrm, hsev⟩ := h1 d hd f hfd
          exact ⟨by rw [hrep]; exact List.mem_append_left _ hin, hrm, hsev⟩
        · obtain ⟨m, dm, _, _, hdm⟩ := hshape d hd
          have hstart2 := hstart d hd f hfd
          subst hdm
          have hf2 : f = ⟨FixKind.remove, dm.startIndex, dm.endIndex⟩ := by
            have : some (⟨FixKind.remove, dm.startIndex, dm.endIndex⟩ : Fix) =
                some f := hfd
            exact (Option.some_inj.mp this).symm
          subst hf2
          refine ⟨?_, rfl, rfl⟩
          rw [hrep]
          exact List.mem_append_right _ hstart2
      · intro d hd hw
        rcases List.mem_append.mp hd with hd | hd
        · exact h2 d hd hw
        · obtain ⟨m, dm, _, _, hdm⟩ := hshape d hd
          subst hdm
          simp [unusedDiag]
      · rw [List.pairwise_append]
        refine ⟨h3, ?_, ?_⟩
        · have hmapnd :
              ((emitUnused sc.declared sc.used rep).1.map fixStart).Nodup := by
            rw [hmap]
            exact hnd.map (Option.some_injective _)
          have hpw := (List.pairwise_map).mp hmapnd
          refine hpw.imp ?_
          intro a b hab f1 f2 hf1 hf2 heq
          apply hab
          show fixStart a = fixStart b
          rw [fixStart, fixStart, hf1, hf2]
          simp [heq]
        · intro a ha b hb f1 f2 hf1 hf2 heq
          have h1a := (h1 a ha f1 hf1).1
          have hbs := hstart b hb f2 hf2
          exact hfresh _ hbs (heq ▸ h1a)

/-- Running a trace preserves the fix/deduplication invariant. -/
theorem runOps_FixInv (ops : List Op) :
    ∀ st, FixInv st → FixInv (runOps st ops) := by
  induction ops with
  | nil => exact fun st h => h
  | cons op ops ih =>
    intro st h
    rw [runOps_cons]
    exact ih _ (applyOp_FixInv _ _ h)

theorem initState_FixInv : FixInv initState :=
  ⟨fun d hd => absurd hd (List.not_mem_nil d),
   fun d hd => absurd hd (List.not_mem_nil d),
   List.Pairwise.nil⟩

/-- With pairwise-distinct declarator start offsets (as any parser-produced
scope has), `exitScope`'s loop emits exactly one diagnostic for each
declaration that is neither used nor already reported. -/
theorem emitUnused_filter (decls : List (String × Decl)) (used : List String) :
    ∀ rep, (decls.map (fun p => p.2.startIndex)).Nodup →
      (emitUnused decls used rep).1 =
        (decls.filter (fun p =>
          !(decide (p.1 ∈ used)) && !(decide (p.2.startIndex ∈ rep)))).map
          (fun p => unusedDiag p.1 p.2) := by
  induction decls with
  | nil => intro rep _; rfl
  | cons p rest ih =>
    intro rep h
    obtain ⟨m, dm⟩ := p
    have hnd : (rest.map (fun p => p.2.startIndex)).Nodup :=
      (List.nodup_cons.mp h).2
    have hni : dm.startIndex ∉ rest.map (fun p => p.2.startIndex) :=
      (List.nodup_cons.mp h).1
    by_cases hu : m ∈ used
    · simp only [emitUnused, if_pos hu, List.filter_cons]
      simp only [hu, decide_True, Bool.not_true, Bool.false_and, if_false]
      exact ih rep hnd
    · by_cases hr : dm.startIndex ∈ rep
      · simp only [emitUnused, if_neg hu, if_pos hr, List.filter_cons]
        simp only [hu, hr, decide_True, decide_False, Bool.not_true,
          Bool.not_false, Bool.true_and, Bool.and_false, if_false]
        exact ih rep hnd
      · simp only [emitUnused, if_neg hu, if_pos hr, if_neg hr,
          List.filter_cons]
        simp only [hu, hr, decide_True, decide_False, Bool.not_true,
          Bool.not_false, Bool.true_and, Bool.and_true, if_true,
          List.map_cons]
        have hcong : rest.filter (fun x =>
            !(decide (x.1 ∈ used)) &&
              !(decide (x.2.startIndex ∈ rep ++ [dm.startIndex]))) =
            rest.filter (fun x =>
              !(decide (x.1 ∈ used)) && !(decide (x.2.startIndex ∈ rep))) := by
          apply List.filter_congr
          intro x hx
          have hxne : x.2.startIndex ≠ dm.startIndex := by
            intro hcontra
            exact hni (hcontra ▸ List.mem_map_of_mem _ hx)
          by_cases hxr : x.2.startIndex ∈ rep
          · simp [hxr]
          · simp [hxr, hxne]
        rw [ih (rep ++ [dm.startIndex]) hnd, hcong]

theorem findInStack_decompose (name : String) (pre : List Scope)
    (sc : Scope) (post : List Scope) (decl : Decl)
    (hpre : ∀ s ∈ pre, s.declared.find? (fun p => p.1 = name) = none)
    (hsc : sc.declared.find? (fun p => p.1 = name) = some (name, decl)) :
    findInStack name (pre ++ sc :: post) = some decl := by
  induction pre with
  | nil => simp [findInStack, hsc]
  | cons s pre ih =>
    have hs := hpre s (by simp)
    simp only [List.cons_append, findInStack, hs]
    exact ih (fun s2 hs2 => hpre s2 (by simp [hs2]))

theorem markFound_decompose (name : String) (pre : List Scope)
    (sc : Scope) (post : List Scope) (decl : Decl)
    (hpre : ∀ s ∈ pre, s.declared.find? (fun p => p.1 = name) = none)
    (hsc : sc.declared.find? (fun p => p.1 = name) = some (name, decl)) :
    markFound name (pre ++ sc :: post) = pre ++ markUsed sc name :: post := by
  induction pre with
  | nil =>
    simp [markFound, hsc]
  | cons s pre ih =>
    have hs := hpre s (by simp)
    have h1 : markFound name ((s :: pre) ++ sc :: post) =
        s :: markFound name (pre ++ sc :: post) := by
      simp [markFound, hs]
    rw [h1, ih (fun s2 hs2 => hpre s2 (by simp [hs2]))]
    rfl

theorem markUsed_mem (sc : Scope) (name : String) :
    name ∈ (markUsed sc name).used := by
  unfold markUsed
  by_cases h : name ∈ sc.used
  · rw [if_pos h]; exact h
  · rw [if_neg h]; simp

/-- Fix/severity discipline of the whole analyzer output. -/
theorem lintCode_FixInv (r : ParseResult) :
    (∀ d ∈ lintCode r, ∀ f, d.fix = some f →
        f.ftype = FixKind.remove ∧ d.severity = Sev.warning) ∧
    (∀ d ∈ lintCode r, d.severity = Sev.warning → d.fix.isSome) ∧
    (lintCode r).Pairwise
      (fun d1 d2 => ∀ f1 f2, d1.fix = some f1 → d2.fix = some f2 →
        f1.start ≠ f2.start) := by
  cases r with
  | ok prog =>
    obtain ⟨h1, h2, h3⟩ :=
      runOps_FixInv (programOps prog) initState initState_FixInv
    exact ⟨fun d hd f hf => (h1 d hd f hf).2, h2, h3⟩
  | fail msg loc? =>
    refine ⟨?_, ?_, ?_⟩
    · intro d hd f hf
      rcases List.mem_singleton.mp hd with rfl
      cases hf
    · intro d hd hw
      rcases List.mem_singleton.mp hd with rfl
      cases hw
    · exact List.pairwise_singleton ..

/-! ## Claims -/

/-- C1 (counterexample): the claim says a declarator whose nearest enclosing
scope-introducer is a *nested* node is not registered in the outer scope.  It
fails: for the program `{ let x; }` (`P0`), whose only declarator sits inside
a nested block, the Program-entry phase (push a scope, run the hoist)
registers `x` in the program scope. -/
theorem C1_counterexample :
    (runOps initState
        (Op.enter :: (hoistStmts P0).map DeclArgs.toOp)).scopeStack =
      [⟨[("x", ⟨DKind.dlet, ⟨1, 6⟩, 6, 7⟩)], []⟩] ∧
    P0 = [Stmt.block [Stmt.varDecl VKind.vlet
      [Dtor.mk ⟨Pat.pid "x" ⟨1, 6⟩ 6 7, ⟨1, 6⟩, 6, 7⟩ none]]] :=
  ⟨by decide, rfl⟩

/-- C1 (amended): on entering a scope-introducing node, before visiting its
statements the analyzer pushes a fresh scope and registers in it every
`var`/`let`/`const` declarator with a simple-identifier target found anywhere
in the node's entire subtree — including inside nested scope-introducing
nodes — keeping, for each name, the first declarator encountered. -/
theorem C1_amended_hoist_full_subtree
    (errs : List LintError) (stack : List Scope) (rep : List Nat)
    (ss : List Stmt) :
    runOps ⟨errs, stack, rep⟩
        (Op.enter :: (hoistStmts ss).map DeclArgs.toOp) =
      ⟨errs,
       ⟨(keepFirstByName (hoistStmts ss)).map DeclArgs.toEntry, []⟩ :: stack,
       rep⟩ := by
  rw [runOps_cons]
  have h1 : applyOp ⟨errs, stack, rep⟩ Op.enter =
      ⟨errs, ⟨[], []⟩ :: stack, rep⟩ := rfl
  rw [h1, declFold]
  have h2 : (hoistStmts ss).filter (fun d => !(hasKey [] d.name)) =
      hoistStmts ss := by
    apply List.filter_eq_self.mpr
    intro a _
    rfl
  rw [h2]
  rfl

/-- C2 (counterexample): for `let AB; let aB; ab;` (`P2`) there are *two*
candidates differing from `ab` only by case, so the claim's first branch
("exactly one") does not apply, and its edit-distance branch cannot pick
`AB`, whose distance 2 exceeds the bound 1 for a length-2 name; yet the code
suggests `AB` (the first case-insensitive match in iteration order). -/
theorem C2_counterexample :
    lintCode (ParseResult.ok P2) =
      [{ message := notDefinedSugMsg "ab" "AB", line := 1, column := 16,
         severity := Sev.error },
       unusedDiag "AB" ⟨DKind.dlet, ⟨1, 4⟩, 4, 6⟩,
       unusedDiag "aB" ⟨DKind.dlet, ⟨1, 12⟩, 12, 14⟩] ∧
    levenshtein "ab" "AB" = 2 ∧
    maxDistance "ab" = 1 ∧
    (toLowerStr "AB" = toLowerStr "ab" ∧ "AB" ≠ "ab") ∧
    (toLowerStr "aB" = toLowerStr "ab" ∧ "aB" ≠ "ab") ∧
    levenshtein "ab" "aB" = 1 :=
  ⟨by decide, by decide, by decide, ⟨by decide, by decide⟩,
   ⟨by decide, by decide⟩, by decide⟩

/-- C2 (amended): the suggestion is computed over the candidate list (all
names declared on the stack, innermost scope first, in insertion order, then
the ambient names, first occurrence kept): if at least one candidate differs
from the name only by letter case, the first such candidate is suggested;
otherwise, among candidates whose length differs by at most the bound
(1 for length ≤ 3, 2 for ≤ 6, else 3), the first candidate attaining the
smallest Levenshtein distance is suggested provided that distance is within
the bound; otherwise no suggestion. -/
theorem C2_amended_suggestion_rule (stack : List Scope) (name : String) :
    getSuggestion stack name = specSuggestion name (candidateList stack) :=
  getSuggestion_eq_spec stack name

/-- C3: when an identifier use resolves to a declaration in scope `sc` (the
innermost scope declaring it), the name is marked used in `sc`, and exactly
one TDZ error is appended at the reference's position exactly when the
declaration's kind is `let`, `const` or `param` and the reference's line is
strictly below the declaration's line; the marked declaration is never
reported unused when its scope is exited. -/
theorem C3_tdz_resolution
    (errs : List LintError) (stack : List Scope) (rep rep2 : List Nat)
    (pre post : List Scope) (sc : Scope) (name : String) (loc : Loc)
    (decl : Decl)
    (hstack : stack = pre ++ sc :: post)
    (hpre : ∀ s ∈ pre, s.declared.find? (fun p => p.1 = name) = none)
    (hsc : sc.declared.find? (fun p => p.1 = name) = some (name, decl)) :
    use name loc ⟨errs, stack, rep⟩ =
      ⟨errs ++ tdzCheck name loc decl, pre ++ markUsed sc name :: post, rep⟩ ∧
    tdzCheck name loc decl =
      (if (decl.kind = DKind.dlet ∨ decl.kind = DKind.dconst ∨
           decl.kind = DKind.dparam) ∧ loc.line < decl.loc.line
       then [tdzDiag name loc] else []) ∧
    name ∈ (markUsed sc name).used ∧
    (∀ d ∈ (emitUnused (markUsed sc name).declared (markUsed sc name).used
        rep2).1, d.message ≠ unusedMsg name) := by
  subst hstack
  refine ⟨?_, rfl, markUsed_mem sc name, ?_⟩
  · rw [use_spec]
    simp only [findInStack_decompose name pre sc post decl hpre hsc,
      markFound_decompose name pre sc post decl hpre hsc]
  · intro d hd heq
    obtain ⟨m, dm, _, hmu, hdm⟩ :=
      emitUnused_shape (markUsed sc name).declared (markUsed sc name).used
        rep2 d hd
    subst hdm
    have hmn : m = name := unusedMsg_inj heq
    rw [hmn] at hmu
    exact hmu (markUsed_mem sc name)

/-- C3 (witness): a `let x` declared at line 2 referenced at line 1 yields
exactly one TDZ error and marks `x` used. -/
theorem C3_tdz_resolution_witness :
    ((⟨[("x", ⟨DKind.dlet, ⟨2, 4⟩, 7, 12⟩)], []⟩ : Scope).declared.find?
        (fun p => p.1 = "x") = some ("x", ⟨DKind.dlet, ⟨2, 4⟩, 7, 12⟩)) ∧
    use "x" ⟨1, 0⟩ ⟨[], [⟨[("x", ⟨DKind.dlet, ⟨2, 4⟩, 7, 12⟩)], []⟩], []⟩ =
      ⟨[tdzDiag "x" ⟨1, 0⟩],
       [⟨[("x", ⟨DKind.dlet, ⟨2, 4⟩, 7, 12⟩)], ["x"]⟩], []⟩ :=
  ⟨by decide, by
    have h := C3_tdz_resolution []
      [⟨[("x", ⟨DKind.dlet, ⟨2, 4⟩, 7, 12⟩)], []⟩] [] [] [] []
      ⟨[("x", ⟨DKind.dlet, ⟨2, 4⟩, 7, 12⟩)], []⟩ "x" ⟨1, 0⟩
      ⟨DKind.dlet, ⟨2, 4⟩, 7, 12⟩ rfl (fun s hs => absurd hs (by simp))
      (by decide)
    exact h.1.trans (by decide)⟩

/-- C4: exiting a scope turns exactly its not-used, not-yet-reported
declarations into warnings carrying a remove-fix spanning the declarator
(assuming the scope's declarator start offsets are pairwise distinct, as in
any parser-produced AST); over the whole analysis no two diagnostics carry
the same fix span; and two distinct declarations of the same name in
different scopes (`P4`) each get their own warning. -/
theorem C4_unused_warnings :
    (∀ (errs : List LintError) (sc : Scope) (rest : List Scope)
       (rep : List Nat),
       (sc.declared.map (fun p => p.2.startIndex)).Nodup →
       (exitScope ⟨errs, sc :: rest, rep⟩).errors =
         errs ++ (sc.declared.filter (fun p =>
             !(decide (p.1 ∈ sc.used)) &&
               !(decide (p.2.startIndex ∈ rep)))).map
           (fun p => unusedDiag p.1 p.2)) ∧
    (∀ r : ParseResult, (lintCode r).Pairwise
       (fun d1 d2 => ∀ f1 f2, d1.fix = some f1 → d2.fix = some f2 →
         ¬ (f1.start = f2.start ∧ f1.stop = f2.stop))) ∧
    lintCode (ParseResult.ok P4) =
      [unusedDiag "a" ⟨DKind.dlet, ⟨1, 6⟩, 6, 7⟩,
       unusedDiag "a" ⟨DKind.dlet, ⟨1, 17⟩, 17, 18⟩] := by
  refine ⟨?_, ?_, by decide⟩
  · intro errs sc rest rep hnd
    have hexit : exitScope ⟨errs, sc :: rest, rep⟩ =
        ⟨errs ++ (emitUnused sc.declared sc.used rep).1, rest,
         (emitUnused sc.declared sc.used rep).2⟩ := rfl
    rw [hexit]
    show errs ++ (emitUnused sc.declared sc.used rep).1 = _
    rw [emitUnused_filter sc.declared sc.used rep hnd]
  · intro r
    have h3 := (lintCode_FixInv r).2.2
    exact h3.imp (fun h f1 f2 hf1 hf2 hc => (h f1 f2 hf1 hf2) hc.1)

/-- C4 (witness): exiting a scope holding one unused declaration of `a`
emits exactly its warning. -/
theorem C4_unused_warnings_witness :
    (((⟨[("a", ⟨DKind.dlet, ⟨1, 4⟩, 4, 5⟩)], []⟩ : Scope).declared.map
        (fun p => p.2.startIndex)).Nodup) ∧
    (exitScope ⟨[], [⟨[("a", ⟨DKind.dlet, ⟨1, 4⟩, 4, 5⟩)], []⟩], []⟩).errors =
      [unusedDiag "a" ⟨DKind.dlet, ⟨1, 4⟩, 4, 5⟩] :=
  ⟨by decide, by
    have h := C4_unused_warnings.1 []
      ⟨[("a", ⟨DKind.dlet, ⟨1, 4⟩, 4, 5⟩)], []⟩ [] [] (by decide)
    exact h.trans (by decide)⟩

/-- C5: resolution searches the stack innermost-first; a name found nowhere
that is ambient changes nothing (no diagnostic, no used-marking), a name
found nowhere and not ambient appends exactly the undefined-identifier
diagnostic (with optional suggestion) at the reference's position, and a
resolved name appends at most a TDZ diagnostic — so the undefined-identifier
diagnostic appears exactly in the not-found, not-ambient case. -/
theorem C5_undefined_and_ambient (name : String) (loc : Loc) (st : LState) :
    use name loc st =
      match findInStack name st.scopeStack with
      | some decl =>
        { st with scopeStack := markFound name st.scopeStack
                  errors := st.errors ++ tdzCheck name loc decl }
      | none =>
        if name ∈ GLOBALS then st
        else { st with errors :=
                 st.errors ++ [notDefinedDiag st.scopeStack name loc] } :=
  use_spec name loc st

/-- C6: within one scope the first declaration of a name wins — a later
`declare` of an already-declared name leaves the state (record, position,
span, diagnostics) unchanged and emits nothing — and `let a; let a;` (`P6`)
with `a` unreferenced yields exactly one unused warning, for the first
declarator. -/
theorem C6_first_declaration_wins :
    (∀ (name : String) (kind : DKind) (loc : Loc) (s e : Nat)
       (errs : List LintError) (sc : Scope) (rest : List Scope)
       (rep : List Nat),
       (sc.declared.find? (fun p => p.1 = name)).isSome →
       declare name kind loc s e ⟨errs, sc :: rest, rep⟩ =
         ⟨errs, sc :: rest, rep⟩) ∧
    lintCode (ParseResult.ok P6) =
      [unusedDiag "a" ⟨DKind.dlet, ⟨1, 4⟩, 4, 5⟩] := by
  refine ⟨?_, by decide⟩
  intro name kind loc s e errs sc rest rep hk
  simp [declare, hk]

/-- C6 (witness): re-declaring `a` in a scope already declaring it is a
no-op. -/
theorem C6_first_declaration_wins_witness :
    (((⟨[("a", ⟨DKind.dlet, ⟨1, 4⟩, 4, 5⟩)], []⟩ : Scope).declared.find?
        (fun p => p.1 = "a")).isSome) ∧
    declare "a" DKind.dlet ⟨1, 11⟩ 11 12
        ⟨[], [⟨[("a", ⟨DKind.dlet, ⟨1, 4⟩, 4, 5⟩)], []⟩], []⟩ =
      ⟨[], [⟨[("a", ⟨DKind.dlet, ⟨1, 4⟩, 4, 5⟩)], []⟩], []⟩ :=
  ⟨by decide,
   C6_first_declaration_wins.1 "a" DKind.dlet ⟨1, 11⟩ 11 12 []
     ⟨[("a", ⟨DKind.dlet, ⟨1, 4⟩, 4, 5⟩)], []⟩ [] [] (by decide)⟩

/-- C7: the analyzer is deterministic — equal inputs give equal diagnostic
lists — and every successful invocation is computed from the fresh
`initState` (empty diagnostics, empty scope stack, empty dedup set), so no
state is shared between invocations. -/
theorem C7_deterministic (r1 r2 : ParseResult) (h : r1 = r2) :
    lintCode r1 = lintCode r2 ∧
    (∀ prog, lintCode (ParseResult.ok prog) =
      (runOps initState (programOps prog)).errors) :=
  ⟨h ▸ rfl, fun _ => rfl⟩

/-- C7 (witness): two invocations on the same program agree. -/
theorem C7_deterministic_witness :
    ParseResult.ok P6 = ParseResult.ok P6 ∧
    lintCode (ParseResult.ok P6) = lintCode (ParseResult.ok P6) :=
  ⟨rfl, (C7_deterministic (ParseResult.ok P6) (ParseResult.ok P6) rfl).1⟩

/-- C8: a parse failure produces exactly one error diagnostic with
`ruleId = "syntax"` at the parser's reported location, defaulting to line 1,
column 1; and no operation ever removes or stops accumulating diagnostics —
running any trace returns the input diagnostics extended by the newly
accumulated ones. -/
theorem C8_completion_and_syntax :
    (∀ (msg : String) (loc? : Option Loc),
       lintCode (ParseResult.fail msg loc?) =
         [{ ruleId := some "syntax", message := msg,
            line := (loc?.map Loc.line).getD 1,
            column := (loc?.map Loc.column).getD 1,
            severity := Sev.error, fix := none }]) ∧
    (∀ (st : LState) (ops : List Op), ∃ tl,
       (runOps st ops).errors = st.errors ++ tl) :=
  ⟨fun _ _ => rfl, fun st ops => runOps_errors ops st⟩

/-- C9: the identifier occurrences an analysis resolves are exactly those not
in an excluded position (declarator binding target, function-declaration name
slot, parameter at its own declaration site, non-computed member property);
in particular `a.b` resolves only `a` while `a[b]` resolves `a` then `b`. -/
theorem C9_identifier_use_positions :
    (∀ prog : List Stmt,
       usesOf (programOps prog) = specUses (identsProgram prog)) ∧
    (∀ (n1 n2 : String) (l1 l2 : Loc),
       exprOps (Expr.member (Expr.ident n1 l1) (Expr.ident n2 l2) false) =
         [Op.use n1 l1] ∧
       exprOps (Expr.member (Expr.ident n1 l1) (Expr.ident n2 l2) true) =
         [Op.use n1 l1, Op.use n2 l2]) := by
  constructor
  · intro prog
    have h1 : programOps prog =
        [Op.enter] ++ (hoistStmts prog).map DeclArgs.toOp ++ stmtsOps prog ++
          [Op.exit] := rfl
    rw [h1]
    simp only [usesOf_append, usesOf_enter, usesOf_exit, usesOf_declMap,
      List.nil_append, List.append_nil]
    exact stmtsOps_uses prog
  · exact fun n1 n2 l1 l2 => ⟨rfl, rfl⟩

/-- C10: a diagnostic carries fix metadata exactly when it is a warning (and
all warnings are unused-declaration warnings), every fix is of kind remove,
and every error-severity diagnostic carries none. -/
theorem C10_fix_iff_warning (r : ParseResult) (d : LintError)
    (hd : d ∈ lintCode r) :
    (d.fix.isSome ↔ d.severity = Sev.warning) ∧
    (∀ f, d.fix = some f → f.ftype = FixKind.remove) := by
  obtain ⟨h1, h2, _⟩ := lintCode_FixInv r
  refine ⟨⟨?_, fun hw => h2 d hd hw⟩, fun f hf => (h1 d hd f hf).1⟩
  intro hs
  obtain ⟨f, hf⟩ := Option.isSome_iff_exists.mp hs
  exact (h1 d hd f hf).2

/-- C10 (witness): the unused warning produced for `P6` carries a remove fix,
being a warning. -/
theorem C10_fix_iff_warning_witness :
    unusedDiag "a" ⟨DKind.dlet, ⟨1, 4⟩, 4, 5⟩ ∈ lintCode (ParseResult.ok P6) ∧
    (((unusedDiag "a" ⟨DKind.dlet, ⟨1, 4⟩, 4, 5⟩).fix.isSome ↔
        (unusedDiag "a" ⟨DKind.dlet, ⟨1, 4⟩, 4, 5⟩).severity = Sev.warning) ∧
     (∀ f, (unusedDiag "a" ⟨DKind.dlet, ⟨1, 4⟩, 4, 5⟩).fix = some f →
        f.ftype = FixKind.remove)) :=
  ⟨by decide,
   C10_fix_iff_warning (ParseResult.ok P6)
     (unusedDiag "a" ⟨DKind.dlet, ⟨1, 4⟩, 4, 5⟩) (by decide)⟩

end LintService
